import Mathlib

/-!
Verification of the incremental Merkle frontier binding in
`src/rust/src/merkle_frontier.rs`.

The Rust file is a thin instantiation of the generic `bridgetree::Frontier`
accumulator at depth `MERKLE_DEPTH = 32` over the Orchard hash type.  The
accumulator core, the empty-subtree table and the versioned wire format live in
library crates that are not part of the shown sources, so they are modelled
here from the specification (each such definition carries a
`Modelled from the spec:` comment).  The wrapper functions that do appear in
the Rust source (`size`, `root`, `append_bundle`, `orchard_empty_root`,
`new_orchard`, `init_wallet`) are translated directly.

The hash/commitment family is an opaque boundary in the specification, so it
is modelled as a free algebra: `combine` is a binary tree constructor and
distinct constructor trees are distinct hashes.
-/

namespace MerkleFrontier

/-- Modelled from the spec: the pluggable hash/commitment capability set
`{combine(a,b) -> hash, empty_leaf() -> hash}` supplied by the instantiating
domain (design note 9.1).  The concrete Orchard hash function is out of scope
and treated as an opaque boundary. -/
structure HashAlg (H : Type) where
  combine : H → H → H
  emptyLeaf : H

/-- Modelled from the spec: the empty-subtree hash table, with `table[0]` the
canonical empty-leaf hash and `table[i+1] = combine(table[i], table[i])`. -/
def HashAlg.emptyHash {H : Type} (A : HashAlg H) : Nat → H
  | 0 => A.emptyLeaf
  | i + 1 => A.combine (A.emptyHash i) (A.emptyHash i)

/-- Modelled from the spec: the frontier state of `bridgetree::Frontier`,
an optional position of the most recently appended leaf together with the
ordered sequence of retained ommers (complete-subtree roots), lowest level
first.  A slot is retained exactly for each set bit of `position + 1`. -/
structure Frontier (H : Type) where
  position : Option Nat
  ommers : List H
deriving DecidableEq

/-- Modelled from the spec: a freshly created frontier has no leaves
(`position = none`, no ommers); this is `Frontier::empty()`. -/
def emptyFrontier {H : Type} : Frontier H := ⟨none, []⟩

/-- Translation of `MerkleFrontier::size` from the Rust source:
`self.0.position().map_or(0, |p| u64::from(p) + 1)`. -/
def Frontier.size {H : Type} (F : Frontier H) : Nat :=
  match F.position with
  | none => 0
  | some p => p + 1

/-- Modelled from the spec: the binary-counter carry rule of `append`.  `n` is
the number of leaves already present; the incoming value combines with the
retained ommer at each trailing set bit of `n` (existing ommer on the left)
and the final value is stored as a fresh ommer. -/
def carry {H : Type} (A : HashAlg H) : Nat → List H → H → List H
  | _, [], v => [v]
  | n, o :: rest, v =>
    if n % 2 = 1 then carry A (n / 2) rest (A.combine o v) else v :: o :: rest

/-- Modelled from the spec: `Frontier::append`.  Fails (returning `false` and
leaving the frontier unchanged) iff the frontier already holds `2^D` leaves;
otherwise stores the new leaf at position `size` via the carry rule. -/
def Frontier.append {H : Type} (A : HashAlg H) (D : Nat) (F : Frontier H)
    (v : H) : Bool × Frontier H :=
  if 2 ^ D ≤ F.size then (false, F)
  else (true, ⟨some F.size, carry A F.size F.ommers v⟩)

/-- Modelled from the spec: root computation.  Walks levels `0` to `D - 1`,
combining the retained ommer at each set bit of the leaf count `n` with the
accumulated rightmost-path hash (padding unfilled positions with the
empty-subtree hash of the level).  When the tree is full the single remaining
slot at level `D` is the root. -/
def rootAux {H : Type} (A : HashAlg H) :
    Nat → Nat → Nat → List H → Option H → H
  | 0, lvl, _, slots, acc =>
    match slots with
    | r :: _ => r
    | [] =>
      match acc with
      | some c => c
      | none => A.emptyHash lvl
  | fuel + 1, lvl, n, slots, acc =>
    if n % 2 = 1 then
      match slots with
      | o :: rest =>
        rootAux A fuel (lvl + 1) (n / 2) rest
          (some (A.combine o (acc.getD (A.emptyHash lvl))))
      | [] => A.emptyHash lvl
    else
      rootAux A fuel (lvl + 1) (n / 2) slots
        (acc.map fun c => A.combine c (A.emptyHash lvl))

/-- Modelled from the spec: `Frontier::root`, hashing against empty nodes up
to the maximum height `D`.  An empty frontier has root `empty_hash(D)`. -/
def Frontier.root {H : Type} (A : HashAlg H) (D : Nat) (F : Frontier H) : H :=
  match F.position with
  | none => A.emptyHash D
  | some p => rootAux A D 0 (p + 1) F.ommers none

/-- Translation of the loop body of `Orchard::append_bundle`: appends each
action commitment in order and stops with `false` at the first failing
`append` (a failed `append` leaves the frontier unchanged, so the state at
the failure is returned). -/
def appendBundleGo {H : Type} (A : HashAlg H) (D : Nat) :
    Frontier H → List H → Bool × Frontier H
  | F, [] => (true, F)
  | F, c :: rest =>
    let r := F.append A D c
    if r.1 then appendBundleGo A D r.2 rest else (false, r.2)

/-- Translation of `Orchard::append_bundle` from the Rust source: a null
bundle pointer (modelled as `none`) is a no-op success; otherwise the ordered
action commitments are appended one by one. -/
def appendBundle {H : Type} (A : HashAlg H) (D : Nat) (F : Frontier H)
    (bundle : Option (List H)) : Bool × Frontier H :=
  match bundle with
  | none => (true, F)
  | some actions => appendBundleGo A D F actions

/-- Modelled from the spec: reachable frontier states are those obtained from
the empty frontier by finitely many successful appends (capacity caps this at
`2^D` appends). -/
inductive Reachable {H : Type} (A : HashAlg H) (D : Nat) : Frontier H → Prop
  | base : Reachable A D emptyFrontier
  | step (F : Frontier H) (v : H) (F' : Frontier H) :
      Reachable A D F → F.append A D v = (true, F') → Reachable A D F'

/-- Fuel-driven population count; `popcountGo fuel n` is the number of set
bits of `n` whenever `n < fuel + 1`. -/
def popcountGo : Nat → Nat → Nat
  | 0, _ => 0
  | fuel + 1, n => if n = 0 then 0 else n % 2 + popcountGo fuel (n / 2)

/-- The number of set bits of `n`; the number of ommers retained by a frontier
holding `n` leaves. -/
def popcount (n : Nat) : Nat := popcountGo (n + 1) n

/-- Modelled from the spec: the version tag of the current versioned wire
format. -/
def VERSION : Nat := 1

/-- Fuel-driven LEB128-style varint encoder; low 7 bits first, high bit of a
byte marks continuation. -/
def encodeVarintGo : Nat → Nat → List Nat
  | 0, _ => []
  | fuel + 1, n =>
    if n < 128 then [n] else (n % 128 + 128) :: encodeVarintGo fuel (n / 128)

/-- Modelled from the spec: the varint encoding used for the position and the
ommer count of the current versioned format. -/
def encodeVarint (n : Nat) : List Nat := encodeVarintGo (n + 1) n

/-- Varint decoder, returning the value and the remaining stream. -/
def decodeVarint : List Nat → Option (Nat × List Nat)
  | [] => none
  | b :: rest =>
    if b < 128 then some (b, rest)
    else
      match decodeVarint rest with
      | some (m, r) => some (b - 128 + 128 * m, r)
      | none => none

/-- Errors of the frontier codec.  Parse errors (unrecognized version,
position/ommer inconsistency, bad markers) are distinguished from the I/O
error raised by a truncated or short stream. -/
inductive FrontierErr : Type
  | ioTruncated
  | badVersion (b : Nat)
  | badPositionMarker (b : Nat)
  | badOmmerMarker (b : Nat)
  | inconsistentOmmers (expected actual : Nat)
deriving DecidableEq

/-- Classification of codec errors: `true` exactly for the I/O (short-stream)
error, `false` for every parse error. -/
def FrontierErr.isIoErr : FrontierErr → Bool
  | .ioTruncated => true
  | _ => false

/-- Modelled from the spec: the ommer list section of the current versioned
format, each entry written with a presence marker followed by the entry
bytes. -/
def encodeOmmers {H : Type} (encH : H → List Nat) : List H → List Nat
  | [] => []
  | h :: rest => 1 :: (encH h ++ encodeOmmers encH rest)

/-- Modelled from the spec: reader for `count` ommer entries.  A short stream
is an I/O error; an unexpected entry marker is a parse error. -/
def parseOmmers {H : Type} (decH : List Nat → Option (H × List Nat)) :
    Nat → List Nat → Except FrontierErr (List H × List Nat)
  | 0, bs => .ok ([], bs)
  | _ + 1, [] => .error .ioTruncated
  | k + 1, m :: rest =>
    if m = 1 then
      match decH rest with
      | some (h, r) =>
        match parseOmmers decH k r with
        | .ok (hs, r2) => .ok (h :: hs, r2)
        | .error e => .error e
      | none => .error .ioTruncated
    else .error (.badOmmerMarker m)

/-- Modelled from the spec: `write_frontier_v1` — the current versioned
format `[version][position: empty marker or marker + varint][ommer count]
[ommer entries]`, parametrized by the domain's canonical hash encoder. -/
def serializeF {H : Type} (encH : H → List Nat) (F : Frontier H) : List Nat :=
  [VERSION] ++
    (match F.position with
      | none => [0]
      | some p => 1 :: encodeVarint p) ++
    encodeVarint F.ommers.length ++
    encodeOmmers encH F.ommers

/-- Modelled from the spec: `read_frontier_v1` — parses the current versioned
format.  An unrecognized version tag or an ommer count inconsistent with the
declared position is a parse error; a truncated stream is an I/O error. -/
def parseF {H : Type} (decH : List Nat → Option (H × List Nat)) :
    List Nat → Except FrontierErr (Frontier H)
  | [] => .error .ioTruncated
  | v :: rest =>
    if v = VERSION then
      match rest with
      | [] => .error .ioTruncated
      | m :: r2 =>
        if m = 0 then
          match decodeVarint r2 with
          | none => .error .ioTruncated
          | some (count, _) =>
            if count = 0 then .ok ⟨none, []⟩
            else .error (.inconsistentOmmers 0 count)
        else if m = 1 then
          match decodeVarint r2 with
          | none => .error .ioTruncated
          | some (p, r3) =>
            match decodeVarint r3 with
            | none => .error .ioTruncated
            | some (count, r4) =>
              if count = popcount (p + 1) then
                match parseOmmers decH count r4 with
                | .ok (os, _) => .ok ⟨some p, os⟩
                | .error e => .error e
              else .error (.inconsistentOmmers (popcount (p + 1)) count)
        else .error (.badPositionMarker m)
    else .error (.badVersion v)

/-- Translation of `pub const MERKLE_DEPTH: u8 = 32`. -/
def MERKLE_DEPTH : Nat := 32

/-- Modelled from the spec: the Orchard hash type `MerkleHashOrchard` as a
free algebra over commitments — the two-child internal hash is a free binary
node, so distinct hashing histories give distinct values. -/
inductive OHash : Type
  | cm (n : Nat)
  | emptyLeaf
  | node (l r : OHash)
deriving DecidableEq

/-- The Orchard instantiation of the hash boundary. -/
def orchardAlg : HashAlg OHash := ⟨OHash.node, OHash.emptyLeaf⟩

/-- Modelled from the spec: `MerkleHashOrchard::empty_root(altitude)`, the
empty-subtree hash at the given altitude. -/
def MerkleHashOrchard_empty_root (altitude : Nat) : OHash :=
  orchardAlg.emptyHash altitude

/-- An injective numeric code for a free Orchard hash value. -/
def hashCode : OHash → Nat
  | .cm n => 2 * n + 1
  | .emptyLeaf => 0
  | .node l r => 2 * Nat.pair (hashCode l) (hashCode r) + 2

/-- `k` little-endian base-256 digits of `m`. -/
def toBytesFixed : Nat → Nat → List Nat
  | 0, _ => []
  | k + 1, m => m % 256 :: toBytesFixed k (m / 256)

/-- Modelled from the spec: the canonical fixed-width (32-byte) encoding of an
Orchard hash value (`HashSer::write` / `to_bytes`). -/
def hashToBytes (h : OHash) : List Nat := toBytesFixed 32 (hashCode h)

/-- Translation of the body of `MerkleFrontier::root` in the Rust source:
serializing the computed root into a fixed 32-byte buffer; the write (and
hence the `expect("root is 32 bytes")`) fails iff the encoding is not exactly
32 bytes wide. -/
def writeRootBuffer (h : OHash) : Option (List Nat) :=
  if (hashToBytes h).length = 32 then some (hashToBytes h) else none

/-- Translation of `orchard_empty_root` from the Rust source:
`MerkleHashOrchard::empty_root(Altitude::from(MERKLE_DEPTH)).to_bytes()`. -/
def orchard_empty_root : List Nat :=
  hashToBytes (MerkleHashOrchard_empty_root MERKLE_DEPTH)

/-- Translation of `new_orchard` from the Rust source: an empty frontier. -/
def new_orchard : Frontier OHash := emptyFrontier

/-- Translation of the hash-level value returned by `MerkleFrontier::root` for
the Orchard instantiation. -/
def orchardRoot (F : Frontier OHash) : OHash :=
  F.root orchardAlg MERKLE_DEPTH

/-- The byte-level result of `MerkleFrontier::root` for Orchard. -/
def orchardRootBytes (F : Frontier OHash) : List Nat :=
  hashToBytes (orchardRoot F)

/-- Modelled from the spec: the wallet-side commitment tree consumed by
`init_wallet` — an opaque structure exposing its checkpoint list and the
bridge state installed by the handoff. -/
structure WalletM (H : Type) where
  checkpoints : List Nat
  bridgeState : Option (Frontier H)
deriving DecidableEq

/-- Modelled from the spec: `crate::wallet::orchard_wallet_init_from_frontier`
(the wallet crate is not among the shown sources).  The handoff installs the
frontier as the sole bridge state and reports `false`, without mutating the
wallet, whenever any checkpoints already exist. -/
def initWallet {H : Type} (F : Frontier H) (w : WalletM H) : Bool × WalletM H :=
  if w.checkpoints = [] then (true, ⟨[], some F⟩) else (false, w)

/-- A trivial hash algebra on `Nat`, used to exercise the generic theorems on
concrete inputs. -/
def natAlg : HashAlg Nat := ⟨fun a b => a + b + 1, 0⟩

/-- A one-byte-per-value encoder for `Nat` hash values (witness codec). -/
def encNat : Nat → List Nat := fun n => [n]

/-- The matching decoder for `encNat`. -/
def decNat : List Nat → Option (Nat × List Nat) := fun l =>
  match l with
  | [] => none
  | b :: r => some (b, r)

/-- The frontier reached by appending `5` then `7` with `natAlg`. -/
def natFrontier2 : Frontier Nat := ⟨some 1, [13]⟩

/-- A frontier one leaf short of the Orchard capacity `2 ^ MERKLE_DEPTH`:
position `2^32 - 2`, with the 32 retained ommers a full frontier carries. -/
def nearFullFrontier : Frontier OHash :=
  ⟨some (2 ^ 32 - 2), List.replicate 32 (OHash.cm 7)⟩

/-! ### Population count lemmas -/

theorem popcountGo_irrel : ∀ f g n : Nat, n < f → n < g →
    popcountGo f n = popcountGo g n := by
  intro f
  induction f with
  | zero => intro g n h _; omega
  | succ f ih =>
    intro g n hf hg
    cases g with
    | zero => omega
    | succ g =>
      by_cases hn : n = 0
      · simp [popcountGo, hn]
      · have h2 : n / 2 < n := Nat.div_lt_self (Nat.pos_of_ne_zero hn) (by omega)
        simp only [popcountGo, if_neg hn]
        rw [ih g (n / 2) (by omega) (by omega)]

theorem popcount_zero : popcount 0 = 0 := rfl

theorem popcount_rec (n : Nat) (hn : n ≠ 0) :
    popcount n = n % 2 + popcount (n / 2) := by
  have h2 : n / 2 < n := Nat.div_lt_self (Nat.pos_of_ne_zero hn) (by omega)
  show popcountGo (n + 1) n = n % 2 + popcountGo (n / 2 + 1) (n / 2)
  conv_lhs => rw [popcountGo]
  rw [if_neg hn, popcountGo_irrel n (n / 2 + 1) (n / 2) h2 (by omega)]

theorem popcount_pos (n : Nat) (hn : n ≠ 0) : 0 < popcount n := by
  induction n using Nat.strong_induction_on with
  | _ n ih =>
    rw [popcount_rec n hn]
    by_cases hodd : n % 2 = 1
    · omega
    · have hhalf : n / 2 ≠ 0 := by omega
      have := ih (n / 2) (Nat.div_lt_self (Nat.pos_of_ne_zero hn) (by omega)) hhalf
      omega

theorem popcount_succ_even (n : Nat) (h : n % 2 = 0) :
    popcount (n + 1) = popcount n + 1 := by
  rw [popcount_rec (n + 1) (by omega)]
  by_cases hn : n = 0
  · simp [hn, popcount_zero]
  · rw [popcount_rec n hn]
    have : (n + 1) / 2 = n / 2 := by omega
    rw [this]
    omega

theorem popcount_succ_odd (n : Nat) (h : n % 2 = 1) :
    popcount (n + 1) = popcount (n / 2 + 1) := by
  rw [popcount_rec (n + 1) (by omega)]
  have h1 : (n + 1) % 2 = 0 := by omega
  have h2 : (n + 1) / 2 = n / 2 + 1 := by omega
  rw [h1, h2]
  omega

theorem popcount_odd (n : Nat) (h : n % 2 = 1) :
    popcount n = popcount (n / 2) + 1 := by
  rw [popcount_rec n (by omega), h]
  omega

/-! ### Carry and append lemmas -/

theorem carry_length {H : Type} (A : HashAlg H) :
    ∀ (slots : List H) (n : Nat) (v : H), slots.length = popcount n →
      (carry A n slots v).length = popcount (n + 1) := by
  intro slots
  induction slots with
  | nil =>
    intro n v h
    have hn : n = 0 := by
      by_contra hne
      have := popcount_pos n hne
      simp at h
      omega
    subst hn
    simp [carry, popcount_succ_even 0 (by omega), popcount_zero]
  | cons o rest ih =>
    intro n v h
    by_cases hodd : n % 2 = 1
    · simp only [carry, if_pos hodd]
      have hrest : rest.length = popcount (n / 2) := by
        have := popcount_odd n hodd
        simp at h
        omega
      rw [ih (n / 2) (A.combine o v) hrest]
      rw [popcount_succ_odd n hodd]
    · have heven : n % 2 = 0 := by omega
      simp only [carry, if_neg hodd]
      simp only [List.length_cons] at h ⊢
      rw [popcount_succ_even n heven]
      omega

theorem append_of_lt {H : Type} (A : HashAlg H) (D : Nat) (F : Frontier H)
    (v : H) (h : F.size < 2 ^ D) :
    F.append A D v = (true, ⟨some F.size, carry A F.size F.ommers v⟩) := by
  rw [Frontier.append, if_neg (by omega)]

theorem append_of_full {H : Type} (A : HashAlg H) (D : Nat) (F : Frontier H)
    (v : H) (h : 2 ^ D ≤ F.size) :
    F.append A D v = (false, F) := by
  rw [Frontier.append, if_pos h]

theorem reachable_invariant {H : Type} (A : HashAlg H) (D : Nat)
    {F : Frontier H} (hR : Reachable A D F) :
    F.ommers.length = popcount F.size ∧ F.size ≤ 2 ^ D := by
  induction hR with
  | base =>
    constructor
    · simp [emptyFrontier, Frontier.size, popcount_zero]
    · exact Nat.zero_le _
  | step F v F' _ h ih =>
    by_cases hfull : 2 ^ D ≤ F.size
    · rw [append_of_full A D F v hfull] at h
      simp at h
    · rw [append_of_lt A D F v (by omega)] at h
      have hF' : F' = ⟨some F.size, carry A F.size F.ommers v⟩ := by
        injection h with _ h2
        exact h2.symm
      subst hF'
      have hsize : Frontier.size (⟨some F.size, carry A F.size F.ommers v⟩ : Frontier H)
          = F.size + 1 := by
        simp [Frontier.size]
      refine ⟨?_, ?_⟩
      · rw [hsize]
        exact carry_length A F.ommers F.size v ih.1
      · omega

/-! ### Codec lemmas -/

theorem decodeVarintGo_encode : ∀ (fuel n : Nat) (rest : List Nat), n < fuel →
    decodeVarint (encodeVarintGo fuel n ++ rest) = some (n, rest) := by
  intro fuel
  induction fuel with
  | zero => intro n rest h; omega
  | succ fuel ih =>
    intro n rest h
    by_cases hsmall : n < 128
    · simp only [encodeVarintGo, if_pos hsmall, List.cons_append, List.nil_append]
      simp [decodeVarint, if_pos hsmall]
    · have hpos : 0 < n := by omega
      have hlt : n / 128 < fuel :=
        lt_of_lt_of_le (Nat.div_lt_self hpos (by omega)) (by omega)
      simp only [encodeVarintGo, if_neg hsmall, List.cons_append]
      rw [decodeVarint, if_neg (by omega), ih (n / 128) rest hlt]
      have heq : n % 128 + 128 - 128 + 128 * (n / 128) = n := by omega
      show some (n % 128 + 128 - 128 + 128 * (n / 128), rest) = some (n, rest)
      rw [heq]

theorem decodeVarint_encode (n : Nat) (rest : List Nat) :
    decodeVarint (encodeVarint n ++ rest) = some (n, rest) :=
  decodeVarintGo_encode (n + 1) n rest (by omega)

theorem parseOmmers_encode {H : Type} (encH : H → List Nat)
    (decH : List Nat → Option (H × List Nat))
    (hdec : ∀ (h : H) (rest : List Nat), decH (encH h ++ rest) = some (h, rest)) :
    ∀ (os : List H) (rest : List Nat),
      parseOmmers decH os.length (encodeOmmers encH os ++ rest) = .ok (os, rest) := by
  intro os
  induction os with
  | nil => intro rest; rfl
  | cons h t ih =>
    intro rest
    simp only [encodeOmmers, List.length_cons, List.cons_append, List.append_assoc]
    rw [parseOmmers, if_pos rfl, hdec h (encodeOmmers encH t ++ rest)]
    show (match parseOmmers decH t.length (encodeOmmers encH t ++ rest) with
          | Except.ok (hs, r2) => Except.ok (h :: hs, r2)
          | Except.error e => Except.error e) = Except.ok (h :: t, rest)
    rw [ih rest]

theorem serializeF_none {H : Type} (encH : H → List Nat) (os : List H) :
    serializeF encH ⟨none, os⟩ =
      VERSION :: 0 :: (encodeVarint os.length ++ encodeOmmers encH os) := by
  simp [serializeF]

theorem serializeF_some {H : Type} (encH : H → List Nat) (p : Nat) (os : List H) :
    serializeF encH ⟨some p, os⟩ =
      VERSION :: 1 ::
        (encodeVarint p ++ (encodeVarint os.length ++ encodeOmmers encH os)) := by
  simp [serializeF]

theorem parseF_pos_branch {H : Type} (decH : List Nat → Option (H × List Nat))
    (p count : Nat) (tail : List Nat) :
    parseF decH (VERSION :: 1 :: (encodeVarint p ++ (encodeVarint count ++ tail))) =
      if count = popcount (p + 1) then
        match parseOmmers decH count tail with
        | .ok (os, _) => .ok ⟨some p, os⟩
        | .error e => .error e
      else .error (.inconsistentOmmers (popcount (p + 1)) count) := by
  simp only [parseF, decodeVarint_encode]
  simp

theorem toBytesFixed_length : ∀ k m : Nat, (toBytesFixed k m).length = k := by
  intro k
  induction k with
  | zero => intro m; rfl
  | succ k ih => intro m; simp [toBytesFixed, ih]

/-! ### Claim theorems -/

/-- C3: round-trip of the current versioned format — for every frontier state
reachable by successful appends from the empty frontier, and any faithful
codec for the domain hash values, parsing the serialized bytes returns
exactly the original frontier. -/
theorem frontier_serialize_roundtrip {H : Type} (A : HashAlg H) (D : Nat)
    (encH : H → List Nat) (decH : List Nat → Option (H × List Nat))
    (hdec : ∀ (h : H) (rest : List Nat), decH (encH h ++ rest) = some (h, rest))
    (F : Frontier H) (hR : Reachable A D F) :
    parseF decH (serializeF encH F) = .ok F := by
  obtain ⟨pos, os⟩ := F
  have hinv := (reachable_invariant A D hR).1
  cases pos with
  | none =>
    have hos : os = [] := by
      have h0 : os.length = 0 := by
        simpa [Frontier.size, popcount_zero] using hinv
      exact List.length_eq_zero.mp h0
    subst hos
    rfl
  | some p =>
    have hlen : os.length = popcount (p + 1) := by
      simpa [Frontier.size] using hinv
    rw [serializeF_some, parseF_pos_branch, if_pos hlen]
    have hpo := parseOmmers_encode encH decH hdec os []
    rw [List.append_nil] at hpo
    rw [hpo]

/-- C3 witness: the round-trip theorem at the concrete frontier reached by
appending `5` then `7` over the `Nat` test algebra with a one-byte codec. -/
theorem frontier_serialize_roundtrip_witness :
    parseF decNat (serializeF encNat natFrontier2) = .ok natFrontier2 :=
  frontier_serialize_roundtrip natAlg 32 encNat decNat (fun _ _ => rfl)
    natFrontier2
    (Reachable.step ⟨some 0, [5]⟩ 7 natFrontier2
      (Reachable.step emptyFrontier 5 ⟨some 0, [5]⟩ Reachable.base (by decide))
      (by decide))

/-- C2: capacity boundary — for a frontier within capacity, `append` fails
(returns `false`) iff the frontier already holds `2 ^ MERKLE_DEPTH` leaves; a
failed append returns the frontier unchanged (hence `size`/`root` are
unchanged), and a successful append stores the new leaf at position `size`,
growing `size` by one. -/
theorem append_capacity_boundary (F : Frontier OHash) (v : OHash)
    (hF : F.size ≤ 2 ^ MERKLE_DEPTH) :
    ((F.append orchardAlg MERKLE_DEPTH v).1 = false ↔
        F.size = 2 ^ MERKLE_DEPTH)
    ∧ ((F.append orchardAlg MERKLE_DEPTH v).1 = false →
        (F.append orchardAlg MERKLE_DEPTH v).2 = F)
    ∧ ((F.append orchardAlg MERKLE_DEPTH v).1 = true →
        (F.append orchardAlg MERKLE_DEPTH v).2.position = some F.size
        ∧ (F.append orchardAlg MERKLE_DEPTH v).2.size = F.size + 1) := by
  by_cases hfull : 2 ^ MERKLE_DEPTH ≤ F.size
  · rw [append_of_full orchardAlg MERKLE_DEPTH F v hfull]
    exact ⟨⟨fun _ => by omega, fun _ => rfl⟩, fun _ => rfl, fun h => by simp at h⟩
  · rw [append_of_lt orchardAlg MERKLE_DEPTH F v (by omega)]
    exact ⟨⟨fun h => by simp at h, fun h => absurd h (by omega)⟩,
      fun h => by simp at h, fun _ => ⟨rfl, by simp [Frontier.size]⟩⟩

/-- C2 witness: the capacity-boundary theorem applied to the empty Orchard
frontier, whose size `0` is within capacity. -/
theorem append_capacity_boundary_witness :
    (emptyFrontier : Frontier OHash).size ≤ 2 ^ MERKLE_DEPTH
    ∧ ((((emptyFrontier : Frontier OHash).append orchardAlg MERKLE_DEPTH
          (OHash.cm 0)).1 = false ↔
        (emptyFrontier : Frontier OHash).size = 2 ^ MERKLE_DEPTH)
      ∧ (((emptyFrontier : Frontier OHash).append orchardAlg MERKLE_DEPTH
          (OHash.cm 0)).1 = false →
        ((emptyFrontier : Frontier OHash).append orchardAlg MERKLE_DEPTH
          (OHash.cm 0)).2 = emptyFrontier)
      ∧ (((emptyFrontier : Frontier OHash).append orchardAlg MERKLE_DEPTH
          (OHash.cm 0)).1 = true →
        ((emptyFrontier : Frontier OHash).append orchardAlg MERKLE_DEPTH
          (OHash.cm 0)).2.position = some (emptyFrontier : Frontier OHash).size
        ∧ ((emptyFrontier : Frontier OHash).append orchardAlg MERKLE_DEPTH
          (OHash.cm 0)).2.size = (emptyFrontier : Frontier OHash).size + 1)) :=
  ⟨Nat.zero_le _,
   append_capacity_boundary emptyFrontier (OHash.cm 0) (Nat.zero_le _)⟩

/-- C1 counterexample: at `size = 2 ^ MERKLE_DEPTH - 1` a 2-action bundle
makes `append_bundle` return `false`, but the frontier size is NOT its
pre-call value: the first commitment was applied before the failure, so the
size afterwards is `2 ^ MERKLE_DEPTH`. -/
theorem appendBundle_atomicity_cex :
    nearFullFrontier.size = 2 ^ MERKLE_DEPTH - 1
    ∧ (appendBundle orchardAlg MERKLE_DEPTH nearFullFrontier
        (some [OHash.cm 100, OHash.cm 101])).1 = false
    ∧ ¬ ((appendBundle orchardAlg MERKLE_DEPTH nearFullFrontier
        (some [OHash.cm 100, OHash.cm 101])).2.size
          = nearFullFrontier.size) := by decide

/-- C1 (amended): when a 2-action bundle exhausts capacity partway through at
`size = 2 ^ MERKLE_DEPTH - 1`, `append_bundle` reports failure and stops at
the failing append, but the action appended before the failure remains, so
the frontier size afterwards is `2 ^ MERKLE_DEPTH`. -/
theorem appendBundle_overflow (F : Frontier OHash) (v1 v2 : OHash)
    (h : F.size = 2 ^ MERKLE_DEPTH - 1) :
    (appendBundle orchardAlg MERKLE_DEPTH F (some [v1, v2])).1 = false
    ∧ (appendBundle orchardAlg MERKLE_DEPTH F (some [v1, v2])).2.size
        = 2 ^ MERKLE_DEPTH := by
  have hpos : 0 < 2 ^ MERKLE_DEPTH := pow_pos (by omega) MERKLE_DEPTH
  have e1 := append_of_lt orchardAlg MERKLE_DEPTH F v1 (by omega)
  have hs1 : (Frontier.mk (some F.size)
      (carry orchardAlg F.size F.ommers v1) : Frontier OHash).size
        = 2 ^ MERKLE_DEPTH := by
    have hstep : (Frontier.mk (some F.size)
        (carry orchardAlg F.size F.ommers v1) : Frontier OHash).size
          = F.size + 1 := rfl
    omega
  have e2 := append_of_full orchardAlg MERKLE_DEPTH
    ⟨some F.size, carry orchardAlg F.size F.ommers v1⟩ v2 (le_of_eq hs1.symm)
  simp only [appendBundle, appendBundleGo, e1, e2]
  exact ⟨rfl, hs1⟩

/-- C1 witness: the amended overflow theorem at the concrete near-full
frontier. -/
theorem appendBundle_overflow_witness :
    nearFullFrontier.size = 2 ^ MERKLE_DEPTH - 1
    ∧ ((appendBundle orchardAlg MERKLE_DEPTH nearFullFrontier
          (some [OHash.cm 100, OHash.cm 101])).1 = false
      ∧ (appendBundle orchardAlg MERKLE_DEPTH nearFullFrontier
          (some [OHash.cm 100, OHash.cm 101])).2.size = 2 ^ MERKLE_DEPTH) :=
  ⟨by decide,
   appendBundle_overflow nearFullFrontier (OHash.cm 100) (OHash.cm 101)
     (by decide)⟩

/-- C4: the domain empty root — `orchard_empty_root()` equals the root of a
freshly created empty frontier, and this common value is `empty_hash(D)` for
`D = MERKLE_DEPTH`, at both the hash level and the serialized byte level. -/
theorem orchard_empty_root_correct :
    orchard_empty_root = orchardRootBytes new_orchard
    ∧ orchardRoot new_orchard = MerkleHashOrchard_empty_root MERKLE_DEPTH
    ∧ MerkleHashOrchard_empty_root MERKLE_DEPTH
        = orchardAlg.emptyHash MERKLE_DEPTH :=
  ⟨rfl, rfl, rfl⟩

/-- C5 counterexample: appending `c0, c1, c2` to an empty depth-2 frontier
does not give `combine(combine(c0,c1), empty_hash(1))` — that hash ignores
`c2` entirely; the true root is `combine(combine(c0,c1),
combine(c2, empty_hash(0)))`. -/
theorem carry_correctness_cex :
    ¬ ((appendBundle orchardAlg 2 emptyFrontier
          (some [OHash.cm 0, OHash.cm 1, OHash.cm 2])).2.root orchardAlg 2
        = orchardAlg.combine (orchardAlg.combine (OHash.cm 0) (OHash.cm 1))
            (orchardAlg.emptyHash 1)) := by decide

/-- C5 (amended): carry correctness — appending 4 leaves `c0..c3` to an empty
depth-2 frontier yields `root = combine(combine(c0,c1), combine(c2,c3))`;
appending only `c0,c1,c2` yields
`root = combine(combine(c0,c1), combine(c2, empty_hash(0)))`. -/
theorem carry_correctness_amended (c0 c1 c2 c3 : OHash) :
    ((appendBundle orchardAlg 2 emptyFrontier
        (some [c0, c1, c2, c3])).2.root orchardAlg 2
      = orchardAlg.combine (orchardAlg.combine c0 c1)
          (orchardAlg.combine c2 c3))
    ∧ ((appendBundle orchardAlg 2 emptyFrontier
        (some [c0, c1, c2])).2.root orchardAlg 2
      = orchardAlg.combine (orchardAlg.combine c0 c1)
          (orchardAlg.combine c2 (orchardAlg.emptyHash 0))) := by
  constructor <;>
    simp [appendBundle, appendBundleGo, Frontier.append, Frontier.size,
      emptyFrontier, carry, Frontier.root, rootAux, orchardAlg,
      HashAlg.emptyHash]

/-- C6: `size()` returns `position + 1` when a position is present and `0`
when the frontier is empty. -/
theorem size_position_spec {H : Type} (F : Frontier H) :
    (F.position = none → F.size = 0)
    ∧ ∀ p : Nat, F.position = some p → F.size = p + 1 := by
  obtain ⟨pos, os⟩ := F
  cases pos <;> simp [Frontier.size]

/-- C6 witness: the size law at an empty frontier and at position `4`. -/
theorem size_position_spec_witness :
    (emptyFrontier : Frontier Nat).size = 0
    ∧ (⟨some 4, []⟩ : Frontier Nat).size = 5 :=
  ⟨(size_position_spec emptyFrontier).1 rfl,
   (size_position_spec ⟨some 4, []⟩).2 4 rfl⟩

/-- C7: a null/absent bundle is a no-op success — `append_bundle` returns
`true` and the frontier is entirely unchanged. -/
theorem append_null_bundle_noop (F : Frontier OHash) :
    appendBundle orchardAlg MERKLE_DEPTH F none = (true, F) := rfl

/-- C8: the wallet handoff fails by reporting `false`, leaving the wallet
unchanged, whenever the wallet tree already holds any checkpoints. -/
theorem init_wallet_checkpointed_fails {H : Type} (F : Frontier H)
    (w : WalletM H) (h : w.checkpoints ≠ []) :
    initWallet F w = (false, w) := by
  simp [initWallet, h]

/-- C8 witness: the handoff theorem at a wallet holding one checkpoint. -/
theorem init_wallet_checkpointed_fails_witness :
    ((⟨[3], none⟩ : WalletM OHash).checkpoints ≠ [])
    ∧ initWallet (emptyFrontier : Frontier OHash) ⟨[3], none⟩
        = (false, (⟨[3], none⟩ : WalletM OHash)) :=
  ⟨by decide,
   init_wallet_checkpointed_fails emptyFrontier ⟨[3], none⟩ (by decide)⟩

/-- C9: parse failure behaviour — parsing is total (every byte stream yields
a success or an error value), an unrecognized version tag and an ommer count
inconsistent with the declared position are parse errors, a truncated stream
is an I/O error, and the I/O error is distinguished from the parse errors. -/
theorem parse_failure_behaviour {H : Type}
    (decH : List Nat → Option (H × List Nat)) :
    parseF decH [] = .error .ioTruncated
    ∧ (∀ (b : Nat) (bs : List Nat), b ≠ VERSION →
        parseF decH (b :: bs) = .error (.badVersion b))
    ∧ (∀ (p count : Nat) (r : List Nat), count ≠ popcount (p + 1) →
        parseF decH
            (VERSION :: 1 :: (encodeVarint p ++ (encodeVarint count ++ r)))
          = .error (.inconsistentOmmers (popcount (p + 1)) count))
    ∧ (∀ bs : List Nat,
        (∃ F, parseF decH bs = .ok F) ∨ ∃ e, parseF decH bs = .error e)
    ∧ FrontierErr.isIoErr .ioTruncated = true
    ∧ (∀ b : Nat, FrontierErr.isIoErr (.badVersion b) = false)
    ∧ (∀ x y : Nat, FrontierErr.isIoErr (.inconsistentOmmers x y) = false) := by
  refine ⟨rfl, ?_, ?_, ?_, rfl, fun b => rfl, fun x y => rfl⟩
  · intro b bs hb
    simp only [parseF]
    rw [if_neg hb]
  · intro p count r hc
    rw [parseF_pos_branch, if_neg hc]
  · intro bs
    cases h : parseF decH bs with
    | ok F => exact Or.inl ⟨F, rfl⟩
    | error e => exact Or.inr ⟨e, rfl⟩

/-- C9 witness: a wrong version byte and an ommer count inconsistent with the
declared position, both at concrete streams. -/
theorem parse_failure_behaviour_witness :
    ((2 : Nat) ≠ VERSION
      ∧ parseF decNat [2] = .error (.badVersion 2))
    ∧ ((5 : Nat) ≠ popcount (0 + 1)
      ∧ parseF decNat
          (VERSION :: 1 :: (encodeVarint 0 ++ (encodeVarint 5 ++ [])))
        = .error (.inconsistentOmmers (popcount (0 + 1)) 5)) :=
  ⟨⟨by decide, (parse_failure_behaviour decNat).2.1 2 [] (by decide)⟩,
   ⟨by decide, (parse_failure_behaviour decNat).2.2.1 0 5 [] (by decide)⟩⟩

/-- C10: `root()` is total — the canonical encoding of the computed root is
always exactly 32 bytes, so writing it into the fixed 32-byte buffer always
succeeds and the `expect("root is 32 bytes")` branch is unreachable. -/
theorem root_write_total (F : Frontier OHash) :
    writeRootBuffer (orchardRoot F) = some (hashToBytes (orchardRoot F)) := by
  have hlen : (hashToBytes (orchardRoot F)).length = 32 :=
    toBytesFixed_length 32 (hashCode (orchardRoot F))
  rw [writeRootBuffer, if_pos hlen]

end MerkleFrontier
